import Mathlib

/-!
Verification of the core of `src/app.py` (an OrcaSlicer web wrapper).

The embedding models:
  * JSON documents as association lists of string keys to scalar JSON values
    (`Doc`); the code treats profile documents as opaque key/value maps, and
    only ever inspects the string-valued fields `name`, `type`, `from`,
    `inherits`, so scalar values suffice.  Python `dict` insertion-order
    semantics are modelled exactly (`dset` for `d[k] = v`, `dupdate` for
    `d.update(other)`).
  * the bundled-profile index for one category subdirectory as an association
    list from profile name to document (`Catalog`); the code stores a path and
    re-parses the file, which is the same thing for an unchanging file system.
  * `resolve_system_profile` as a well-founded recursion over the set of
    catalog names not yet visited, exactly mirroring the `_seen` set in the
    code (the Python `_seen` set is mutated in place, but every call makes at
    most one recursive call, so threading it functionally is equivalent).
  * `ensure_orca_metadata`, `build_system_profile_index`,
    `sanitize_profile_name` and the name-handling parts of the profile CRUD
    routes as pure functions.
  * the `/api/slice` handler as a big-step function from the pre-request
    server state and an abstract engine outcome to a response and a
    post-request server state.
-/

/-- A scalar JSON value.  Python string truthiness, numeric truthiness and
dictionary-key equality are modelled on this type. -/
inductive JVal where
  | str : String → JVal
  | num : Int → JVal
  | bool : Bool → JVal
  | null : JVal
deriving DecidableEq, Repr

/-- Python truthiness of a scalar JSON value (`if name:` and friends). -/
def JVal.truthy : JVal → Bool
  | .str s => !s.isEmpty
  | .num n => n != 0
  | .bool b => b
  | .null => false

/-- A JSON object as an insertion-ordered association list, as produced by
`json.loads` (which yields unique keys) and rendered by `json.dumps`. -/
abbrev Doc := List (String × JVal)

/-- The bundled system-profile index for one category subdirectory:
`_system_profile_index[subdir]`, mapping profile name to (the parsed content
of) its file. -/
abbrev Catalog := List (JVal × Doc)

/-- First-match lookup in an association list: `d.get(k)` on a Python dict
(dicts have unique keys, so first-match is exact). -/
def alookup {α β : Type} [DecidableEq α] : List (α × β) → α → Option β
  | [], _ => none
  | e :: t, k => if e.1 = k then some e.2 else alookup t k

/-- Python `d[k] = v`: overwrite the value in place if the key is present,
otherwise append the new key at the end. -/
def dset {α β : Type} [DecidableEq α] (d : List (α × β)) (k : α) (v : β) :
    List (α × β) :=
  if (alookup d k).isSome then
    d.map (fun e => if e.1 = k then (k, v) else e)
  else d ++ [(k, v)]

/-- Python `parent.update(child)`: keys already in `parent` keep their
position and take `child`'s value; keys only in `child` are appended in
`child`'s order. -/
def dupdate {α β : Type} [DecidableEq α] (parent child : List (α × β)) :
    List (α × β) :=
  parent.map (fun e =>
    match alookup child e.1 with
    | some v => (e.1, v)
    | none => e)
  ++ child.filter (fun e => (alookup parent e.1).isNone)

/-- The set of names indexed by a catalog. -/
def catalogKeys (cat : Catalog) : Finset JVal := (cat.map Prod.fst).toFinset

theorem alookup_some_mem_keys {cat : Catalog} {n : JVal} {obj : Doc}
    (h : alookup cat n = some obj) : n ∈ catalogKeys cat := by
  induction cat with
  | nil => simp [alookup] at h
  | cons e t ih =>
    rw [alookup] at h
    by_cases he : e.1 = n
    · simp [catalogKeys, ← he]
    · rw [if_neg he] at h
      have := ih h
      simp [catalogKeys] at this ⊢
      exact Or.inr this

theorem card_sdiff_insert_lt {α : Type} [DecidableEq α]
    {keys seen : Finset α} {a : α} (ha : a ∈ keys) (hs : a ∉ seen) :
    (keys \ insert a seen).card < (keys \ seen).card := by
  apply Finset.card_lt_card
  rw [Finset.ssubset_iff_of_subset
    (Finset.sdiff_subset_sdiff (le_refl _) (Finset.subset_insert _ _))]
  exact ⟨a, Finset.mem_sdiff.2 ⟨ha, hs⟩,
    fun hc => (Finset.mem_sdiff.1 hc).2 (Finset.mem_insert_self _ _)⟩

theorem isSome_get_mem_keys {cat : Catalog} {n : JVal}
    (h : (alookup cat n).isSome) : n ∈ catalogKeys cat :=
  alookup_some_mem_keys (Option.eq_some_of_isSome h)

/-- `resolve_system_profile(subdir, name, _seen)`: load a bundled system
profile by name, recursively resolving `inherits`.  A name already seen or
not indexed resolves to the empty document; otherwise the parent chain is
resolved first and the current document's keys are laid over it
(`parent.update(obj)`).  Termination: every recursive call happens with a
name that is in the catalog and not yet in `seen`, so the set of unvisited
catalog names strictly shrinks. -/
def resolve_system_profile (cat : Catalog) (name : JVal)
    (seen : Finset JVal) : Doc :=
  if hs : name ∈ seen then []
  else if hl : (alookup cat name).isSome then
    let obj := (alookup cat name).get hl
    match alookup obj "inherits" with
    | some parentName =>
      if parentName.truthy then
        dupdate (resolve_system_profile cat parentName (insert name seen)) obj
      else obj
    | none => obj
  else []
termination_by (catalogKeys cat \ seen).card
decreasing_by
  exact card_sdiff_insert_lt (isSome_get_mem_keys hl) hs

/-- Fuel-indexed copy of `resolve_system_profile`, used only to evaluate the
resolver on concrete inputs (the well-founded definition does not reduce in
the kernel); `resolve_eq_resolveFuel` below proves the two agree whenever the
fuel is at least the number of unvisited catalog names. -/
def resolveFuel (cat : Catalog) : Nat → JVal → Finset JVal → Doc
  | 0, _, _ => []
  | fuel + 1, name, seen =>
    if name ∈ seen then []
    else if hl : (alookup cat name).isSome then
      let obj := (alookup cat name).get hl
      match alookup obj "inherits" with
      | some parentName =>
        if parentName.truthy then
          dupdate (resolveFuel cat fuel parentName (insert name seen)) obj
        else obj
      | none => obj
    else []

theorem resolveFuel_of_indexed {cat : Catalog} {name : JVal}
    {seen : Finset JVal} {obj : Doc} {fuel : Nat} (hs : name ∉ seen)
    (hl : alookup cat name = some obj) :
    resolveFuel cat (fuel + 1) name seen =
      match alookup obj "inherits" with
      | some parentName =>
        if parentName.truthy then
          dupdate (resolveFuel cat fuel parentName (insert name seen)) obj
        else obj
      | none => obj := by
  simp [resolveFuel, hs, hl]

theorem resolve_of_mem_seen {cat : Catalog} {name : JVal} {seen : Finset JVal}
    (hs : name ∈ seen) : resolve_system_profile cat name seen = [] := by
  rw [resolve_system_profile]
  simp [hs]

theorem resolve_of_not_indexed {cat : Catalog} {name : JVal}
    {seen : Finset JVal} (hs : name ∉ seen) (hl : alookup cat name = none) :
    resolve_system_profile cat name seen = [] := by
  rw [resolve_system_profile]
  simp [hs, hl]

theorem resolve_of_indexed {cat : Catalog} {name : JVal} {seen : Finset JVal}
    {obj : Doc} (hs : name ∉ seen) (hl : alookup cat name = some obj) :
    resolve_system_profile cat name seen =
      match alookup obj "inherits" with
      | some parentName =>
        if parentName.truthy then
          dupdate (resolve_system_profile cat parentName (insert name seen)) obj
        else obj
      | none => obj := by
  rw [resolve_system_profile]
  simp [hs, hl]

theorem resolve_eq_resolveFuel (cat : Catalog) (name : JVal)
    (seen : Finset JVal) (fuel : Nat)
    (h : (catalogKeys cat \ seen).card ≤ fuel) :
    resolve_system_profile cat name seen = resolveFuel cat fuel name seen := by
  induction fuel generalizing name seen with
  | zero =>
    rw [resolveFuel]
    by_cases hs : name ∈ seen
    · exact resolve_of_mem_seen hs
    · cases hl : alookup cat name with
      | none => exact resolve_of_not_indexed hs hl
      | some obj =>
        exfalso
        have hm : name ∈ catalogKeys cat \ seen :=
          Finset.mem_sdiff.2 ⟨alookup_some_mem_keys hl, hs⟩
        have : 0 < (catalogKeys cat \ seen).card :=
          Finset.card_pos.2 ⟨name, hm⟩
        omega
  | succ fuel ih =>
    by_cases hs : name ∈ seen
    · rw [resolve_of_mem_seen hs, resolveFuel, if_pos hs]
    · cases hl : alookup cat name with
      | none =>
        rw [resolve_of_not_indexed hs hl, resolveFuel, if_neg hs]
        simp [hl]
      | some obj =>
        rw [resolve_of_indexed hs hl, resolveFuel_of_indexed hs hl]
        cases alookup obj "inherits" with
        | none => rfl
        | some parentName =>
          dsimp only
          by_cases ht : parentName.truthy
          · rw [if_pos ht, if_pos ht]
            have hlt := card_sdiff_insert_lt (alookup_some_mem_keys hl) hs
            rw [ih parentName (insert name seen) (by omega)]
          · rw [if_neg ht, if_neg ht]

theorem alookup_append {α β : Type} [DecidableEq α] (l1 l2 : List (α × β))
    (k : α) :
    alookup (l1 ++ l2) k =
      match alookup l1 k with
      | some v => some v
      | none => alookup l2 k := by
  induction l1 with
  | nil => simp [alookup]
  | cons e t ih =>
    by_cases he : e.1 = k
    · simp [alookup, he]
    · simp [alookup, he, ih]

theorem alookup_map_upd {α β : Type} [DecidableEq α] (p c : List (α × β))
    (k : α) :
    alookup (p.map (fun e =>
      match alookup c e.1 with
      | some v => (e.1, v)
      | none => e)) k =
      match alookup p k with
      | none => none
      | some v =>
        match alookup c k with
        | some w => some w
        | none => some v := by
  induction p with
  | nil => simp [alookup]
  | cons e t ih =>
    by_cases he : e.1 = k
    · subst he
      cases hc : alookup c e.1 with
      | none => simp [alookup, hc]
      | some w => simp [alookup, hc]
    · cases hc : alookup c e.1 with
      | none => simp [alookup, hc, he, ih]
      | some w => simp [alookup, hc, he, ih]

theorem alookup_filter_notin {α β : Type} [DecidableEq α]
    (p c : List (α × β)) (k : α) :
    alookup (c.filter (fun e => (alookup p e.1).isNone)) k =
      if (alookup p k).isNone then alookup c k else none := by
  induction c with
  | nil => simp [alookup]
  | cons e t ih =>
    by_cases he : e.1 = k
    · subst he
      cases hp : alookup p e.1 with
      | none => simp [alookup, hp, List.filter]
      | some w => simp [alookup, hp, List.filter, ih]
    · cases hp : alookup p e.1 with
      | none => simp [alookup, hp, he, List.filter, ih]
      | some w =>
        by_cases hpe : (alookup p e.1).isNone
        · simp [hp] at hpe
        · simp [alookup, hp, he, List.filter, ih]

/-- The fundamental merge law: after `parent.update(child)`, a key takes the
child's value when the child has it and the parent's value otherwise. -/
theorem alookup_dupdate {α β : Type} [DecidableEq α]
    (p c : List (α × β)) (k : α) :
    alookup (dupdate p c) k =
      match alookup c k with
      | some v => some v
      | none => alookup p k := by
  rw [dupdate, alookup_append, alookup_map_upd, alookup_filter_notin]
  cases hp : alookup p k with
  | none => cases hc : alookup c k <;> simp [hp]
  | some v => cases hc : alookup c k <;> simp [hp]

theorem alookup_dset_self {α β : Type} [DecidableEq α]
    (d : List (α × β)) (k : α) (v : β) :
    alookup (dset d k v) k = some v := by
  rw [dset]
  by_cases hd : (alookup d k).isSome
  · rw [if_pos hd]
    induction d with
    | nil => simp [alookup] at hd
    | cons e t ih =>
      by_cases he : e.1 = k
      · simp [alookup, he]
      · simp [alookup, he] at hd ⊢
        exact ih hd
  · rw [if_neg hd, alookup_append]
    simp at hd
    simp [hd, alookup]

theorem alookup_map_set_ne {α β : Type} [DecidableEq α]
    (d : List (α × β)) (k k2 : α) (v : β) (hne : k2 ≠ k) :
    alookup (d.map (fun e => if e.1 = k then (k, v) else e)) k2 =
      alookup d k2 := by
  induction d with
  | nil => simp [alookup]
  | cons e t ih =>
    by_cases he : e.1 = k
    · have hk2 : ¬ (k = k2) := fun h => hne h.symm
      have he2 : ¬ (e.1 = k2) := he ▸ hk2
      simp [alookup, he, hk2, he2, ih]
    · by_cases he2 : e.1 = k2 <;> simp [alookup, he, he2, hne, ih]

theorem alookup_dset_ne {α β : Type} [DecidableEq α]
    (d : List (α × β)) (k k2 : α) (v : β) (hne : k2 ≠ k) :
    alookup (dset d k v) k2 = alookup d k2 := by
  rw [dset]
  by_cases hd : (alookup d k).isSome
  · rw [if_pos hd]
    exact alookup_map_set_ne d k k2 v hne
  · rw [if_neg hd, alookup_append]
    cases h2 : alookup d k2 with
    | none => simp [alookup, Ne.symm hne]
    | some w => simp

/-- Claim C1: on a catalog whose inheritance references form a cycle
(`A` inherits `B`, `B` inherits `A`), `resolve_system_profile` terminates
(the function is total by well-founded recursion on the unvisited catalog
names; a name already in the visited set resolves to the empty document) and
returns a non-empty partial document containing at least `A`'s own keys; no
error path exists. -/
theorem resolve_cycle_terminates (cat : Catalog) (A B : JVal)
    (objA objB : Doc)
    (hA : alookup cat A = some objA)
    (hAi : alookup objA "inherits" = some B) (hBt : B.truthy = true)
    (hB : alookup cat B = some objB)
    (hBi : alookup objB "inherits" = some A) (hAt : A.truthy = true) :
    (∀ seen : Finset JVal, A ∈ seen → resolve_system_profile cat A seen = [])
    ∧ (∀ k : String, (alookup objA k).isSome →
        (alookup (resolve_system_profile cat A ∅) k).isSome)
    ∧ resolve_system_profile cat A ∅ ≠ [] := by
  have hkeys : ∀ k : String, (alookup objA k).isSome →
      (alookup (resolve_system_profile cat A ∅) k).isSome := by
    intro k hk
    rw [resolve_of_indexed (Finset.not_mem_empty A) hA]
    simp only [hAi, hBt, if_true]
    rw [alookup_dupdate]
    cases hko : alookup objA k with
    | none => simp [hko] at hk
    | some v => simp
  refine ⟨fun seen hs => resolve_of_mem_seen hs, hkeys, ?_⟩
  intro hemp
  have h1 : (alookup (resolve_system_profile cat A ∅) "inherits").isSome :=
    hkeys "inherits" (by simp [hAi])
  rw [hemp] at h1
  simp [alookup] at h1

def objAEx : Doc := [("name", .str "A"), ("inherits", .str "B"),
  ("k1", .str "v1")]

def objBEx : Doc := [("name", .str "B"), ("inherits", .str "A")]

def catCycleEx : Catalog := [(.str "A", objAEx), (.str "B", objBEx)]

theorem resolve_cycle_terminates_witness :
    alookup catCycleEx (JVal.str "A") = some objAEx ∧
    resolve_system_profile catCycleEx (JVal.str "A") ∅ ≠ [] :=
  ⟨by decide,
    (resolve_cycle_terminates catCycleEx (JVal.str "A") (JVal.str "B")
      objAEx objBEx (by decide) (by decide) (by decide) (by decide)
      (by decide) (by decide)).2.2⟩

/-- Claim C4: for a name present in the catalog, the resolver's result
contains every key of the indexed document and, on each such key, carries the
indexed (descendant) document's own value — the descendant wins over any
ancestor on shared keys because the merge is oldest-ancestor-first with the
child overlaid last.  For a name not in the catalog the resolver returns the
empty document. -/
theorem resolve_indexed_contract (cat : Catalog) (name : JVal) :
    (alookup cat name = none → resolve_system_profile cat name ∅ = [])
    ∧ ∀ obj : Doc, alookup cat name = some obj →
        ∀ k : String, (alookup obj k).isSome →
          alookup (resolve_system_profile cat name ∅) k = alookup obj k := by
  constructor
  · exact fun h => resolve_of_not_indexed (Finset.not_mem_empty name) h
  · intro obj hl k hk
    rw [resolve_of_indexed (Finset.not_mem_empty name) hl]
    cases hi : alookup obj "inherits" with
    | none => rfl
    | some p =>
      dsimp only
      by_cases ht : p.truthy
      · rw [if_pos ht, alookup_dupdate]
        cases hko : alookup obj k with
        | none => simp [hko] at hk
        | some v => simp
      · rw [if_neg ht]

def objBaseEx : Doc := [("name", .str "base"), ("layer", .str "two"),
  ("shared", .str "old")]

def objChildEx : Doc := [("name", .str "child"), ("inherits", .str "base"),
  ("shared", .str "new")]

def catChainEx : Catalog := [(.str "base", objBaseEx),
  (.str "child", objChildEx)]

theorem resolve_indexed_contract_witness :
    (alookup objChildEx "shared").isSome = true ∧
    alookup (resolve_system_profile catChainEx (JVal.str "child") ∅) "shared" =
      alookup objChildEx "shared" :=
  ⟨by decide,
    (resolve_indexed_contract catChainEx (JVal.str "child")).2 objChildEx
      (by decide) "shared" (by decide)⟩

/-- The user-facing profile categories (`VALID_CATEGORIES`). -/
inductive Category where
  | printer
  | process
  | filament
deriving DecidableEq, Repr

/-- `CATEGORY_TO_ORCA_TYPE`: the engine vocabulary stamped into `type`. -/
def CATEGORY_TO_ORCA_TYPE : Category → String
  | .printer => "machine"
  | .process => "process"
  | .filament => "filament"

/-- `_system_profile_index`: one catalog per bundled subdirectory
(`machine`, `process`, `filament`). -/
structure SysIndex where
  machine : Catalog
  process : Catalog
  filament : Catalog

/-- `CATEGORY_TO_SUBDIR` composed with the index lookup
`_system_profile_index[subdir]` (printer maps to the `machine` subdir). -/
def subdirCatalog (idx : SysIndex) : Category → Catalog
  | .printer => idx.machine
  | .process => idx.process
  | .filament => idx.filament

/-- `VALID_FROM_VALUES = {"system", "User", "user"}`. -/
def VALID_FROM_VALUES : List JVal := [.str "system", .str "User", .str "user"]

/-- `obj.get("from") in VALID_FROM_VALUES` (a missing key yields `None`,
which is never in the set). -/
def validFrom : Option JVal → Bool
  | some x => VALID_FROM_VALUES.contains x
  | none => false

/-- The first two normalization steps of `ensure_orca_metadata`: force
`obj["type"]` to the category's engine vocabulary and default `obj["from"]`
to `"User"` unless it is a recognized provenance marker. -/
def stampMeta (category : Category) (d : Doc) : Doc :=
  let obj := dset d "type" (.str (CATEGORY_TO_ORCA_TYPE category))
  if validFrom (alookup obj "from") then obj
  else dset obj "from" (.str "User")

/-- `ensure_orca_metadata(data_bytes, category)` at the document level
(JSON parsing and serialization round-trip the insertion-ordered map, so
they are identities here): stamp `type`/`from`, then, if the document
declares a truthy `inherits`, resolve it against the category's bundled
catalog and, when the base is non-empty, merge the document over the base
and re-stamp `inherits` to the immediate parent's name. -/
def ensure_orca_metadata (idx : SysIndex) (category : Category) (d : Doc) :
    Doc :=
  let obj := stampMeta category d
  match alookup obj "inherits" with
  | some inherits_name =>
    if inherits_name.truthy then
      let base :=
        resolve_system_profile (subdirCatalog idx category) inherits_name ∅
      if base.isEmpty then obj
      else dset (dupdate base obj) "inherits" inherits_name
    else obj
  | none => obj

theorem stampMeta_type (c : Category) (d : Doc) :
    alookup (stampMeta c d) "type" =
      some (.str (CATEGORY_TO_ORCA_TYPE c)) := by
  simp only [stampMeta]
  by_cases hv : validFrom
      (alookup (dset d "type" (.str (CATEGORY_TO_ORCA_TYPE c))) "from")
  · rw [if_pos hv]
    exact alookup_dset_self _ _ _
  · rw [if_neg hv,
      alookup_dset_ne _ _ _ _ (by decide : ("type" : String) ≠ "from")]
    exact alookup_dset_self _ _ _

theorem stampMeta_from (c : Category) (d : Doc) :
    alookup (stampMeta c d) "from" =
      if validFrom (alookup d "from") then alookup d "from"
      else some (.str "User") := by
  simp only [stampMeta]
  have h1 : alookup (dset d "type" (.str (CATEGORY_TO_ORCA_TYPE c))) "from" =
      alookup d "from" :=
    alookup_dset_ne _ _ _ _ (by decide : ("from" : String) ≠ "type")
  simp only [h1]
  by_cases hv : validFrom (alookup d "from")
  · rw [if_pos hv, if_pos hv]
    exact h1
  · rw [if_neg hv, if_neg hv]
    exact alookup_dset_self _ _ _

theorem stampMeta_other (c : Category) (d : Doc) (k : String)
    (hk1 : k ≠ "type") (hk2 : k ≠ "from") :
    alookup (stampMeta c d) k = alookup d k := by
  simp only [stampMeta]
  have h1 : alookup (dset d "type" (.str (CATEGORY_TO_ORCA_TYPE c))) k =
      alookup d k := alookup_dset_ne _ _ _ _ hk1
  by_cases hv : validFrom
      (alookup (dset d "type" (.str (CATEGORY_TO_ORCA_TYPE c))) "from")
  · rw [if_pos hv]
    exact h1
  · rw [if_neg hv, alookup_dset_ne _ _ _ _ hk2]
    exact h1

theorem stampMeta_inherits (c : Category) (d : Doc) :
    alookup (stampMeta c d) "inherits" = alookup d "inherits" :=
  stampMeta_other c d "inherits" (by decide) (by decide)

theorem stampMeta_from_valid (c : Category) (d : Doc) :
    validFrom (alookup (stampMeta c d) "from") = true := by
  rw [stampMeta_from]
  by_cases hv : validFrom (alookup d "from")
  · rw [if_pos hv]
    exact hv
  · rw [if_neg hv]
    decide

theorem ensure_no_inherits {idx : SysIndex} {c : Category} {d : Doc}
    (h : alookup d "inherits" = none) :
    ensure_orca_metadata idx c d = stampMeta c d := by
  simp only [ensure_orca_metadata, stampMeta_inherits, h]

theorem ensure_falsy_inherits {idx : SysIndex} {c : Category} {d : Doc}
    {iv : JVal} (h : alookup d "inherits" = some iv)
    (ht : iv.truthy = false) :
    ensure_orca_metadata idx c d = stampMeta c d := by
  simp only [ensure_orca_metadata, stampMeta_inherits, h, ht]
  rfl

theorem ensure_unresolved {idx : SysIndex} {c : Category} {d : Doc}
    {iv : JVal} (h : alookup d "inherits" = some iv) (ht : iv.truthy = true)
    (hb : resolve_system_profile (subdirCatalog idx c) iv ∅ = []) :
    ensure_orca_metadata idx c d = stampMeta c d := by
  simp only [ensure_orca_metadata, stampMeta_inherits, h, ht, hb]
  rfl

theorem ensure_merge {idx : SysIndex} {c : Category} {d : Doc}
    {iv : JVal} (h : alookup d "inherits" = some iv) (ht : iv.truthy = true)
    (hb : resolve_system_profile (subdirCatalog idx c) iv ∅ ≠ []) :
    ensure_orca_metadata idx c d =
      dset (dupdate (resolve_system_profile (subdirCatalog idx c) iv ∅)
        (stampMeta c d)) "inherits" iv := by
  have hbe : (resolve_system_profile (subdirCatalog idx c) iv ∅).isEmpty =
      false := by
    cases he : resolve_system_profile (subdirCatalog idx c) iv ∅ with
    | nil => exact absurd he hb
    | cons e t => rfl
  simp only [ensure_orca_metadata, stampMeta_inherits, h, ht, hbe]
  rfl

/-- Claim C7: normalization unconditionally forces `type` to the engine
vocabulary for the category (printer→machine, process→process,
filament→filament), regardless of any pre-existing value, and sets `from`
to the input's value when that value is a recognized provenance marker and
to `"User"` otherwise. -/
theorem normalize_stamps_type_from (idx : SysIndex) (c : Category) (d : Doc) :
    alookup (ensure_orca_metadata idx c d) "type" =
      some (.str (CATEGORY_TO_ORCA_TYPE c))
    ∧ alookup (ensure_orca_metadata idx c d) "from" =
      (if validFrom (alookup d "from") then alookup d "from"
       else some (.str "User")) := by
  cases hi : alookup d "inherits" with
  | none =>
    rw [ensure_no_inherits hi]
    exact ⟨stampMeta_type c d, stampMeta_from c d⟩
  | some iv =>
    by_cases ht : iv.truthy
    · by_cases hb : resolve_system_profile (subdirCatalog idx c) iv ∅ = []
      · rw [ensure_unresolved hi ht hb]
        exact ⟨stampMeta_type c d, stampMeta_from c d⟩
      · rw [ensure_merge hi ht hb]
        constructor
        · rw [alookup_dset_ne _ _ _ _
            (by decide : ("type" : String) ≠ "inherits"), alookup_dupdate,
            stampMeta_type]
        · rw [alookup_dset_ne _ _ _ _
            (by decide : ("from" : String) ≠ "inherits"), alookup_dupdate,
            stampMeta_from]
          by_cases hv : validFrom (alookup d "from")
          · rw [if_pos hv]
            cases hf : alookup d "from" with
            | none =>
              exfalso
              rw [hf] at hv
              simp [validFrom] at hv
            | some v => rfl
          · rw [if_neg hv]
    · have ht2 : iv.truthy = false := by
        cases h : iv.truthy
        · rfl
        · exact absurd h ht
      rw [ensure_falsy_inherits hi ht2]
      exact ⟨stampMeta_type c d, stampMeta_from c d⟩

/-- Claim C5: when the uploaded document declares a truthy `inherits` whose
resolution yields a non-empty base, the normalized result's `inherits` field
is re-stamped to the immediate parent's name declared by the uploaded
document itself — never the `inherits` of an ancestor pulled in by the
merge. -/
theorem normalize_restamps_inherits (idx : SysIndex) (c : Category) (d : Doc)
    (iv : JVal) (hiv : alookup d "inherits" = some iv)
    (ht : iv.truthy = true)
    (hbase : resolve_system_profile (subdirCatalog idx c) iv ∅ ≠ []) :
    alookup (ensure_orca_metadata idx c d) "inherits" = some iv := by
  rw [ensure_merge hiv ht hbase, alookup_dset_self]

/-- Claim C8: when the declared `inherits` resolves to the empty document,
normalization is exactly the `type`/`from` stamping — no merge happens, and
every key other than `type` and `from` keeps its original value (in
particular no key is added or removed beyond the two stamps, and no error
is raised: the function is total). -/
theorem normalize_unresolvable_keeps_doc (idx : SysIndex) (c : Category)
    (d : Doc) (iv : JVal) (hiv : alookup d "inherits" = some iv)
    (ht : iv.truthy = true)
    (hbase : resolve_system_profile (subdirCatalog idx c) iv ∅ = []) :
    ensure_orca_metadata idx c d = stampMeta c d
    ∧ ∀ k : String, k ≠ "type" → k ≠ "from" →
        alookup (ensure_orca_metadata idx c d) k = alookup d k := by
  have he := ensure_unresolved hiv ht hbase
  exact ⟨he, fun k h1 h2 => by rw [he, stampMeta_other c d k h1 h2]⟩

/-- A concrete system-profile index: the `machine` subdir holds the
two-profile chain, the other subdirs are empty. -/
def idxEx : SysIndex := ⟨catChainEx, [], []⟩

def dOverrideEx : Doc := [("inherits", .str "base"), ("shared", .str "mine")]

theorem normalize_restamps_inherits_witness :
    alookup (ensure_orca_metadata idxEx .printer dOverrideEx) "inherits" =
      some (.str "base") :=
  normalize_restamps_inherits idxEx .printer dOverrideEx (.str "base")
    (by decide) (by decide)
    (by
      rw [resolve_eq_resolveFuel _ _ _ 2 (by decide)]
      decide)

def dUnresEx : Doc := [("inherits", .str "ghost"), ("k", .str "v")]

theorem normalize_unresolvable_witness :
    alookup (ensure_orca_metadata idxEx .process dUnresEx) "k" =
      alookup dUnresEx "k" :=
  (normalize_unresolvable_keeps_doc idxEx .process dUnresEx (.str "ghost")
    (by decide) (by decide)
    (by
      rw [resolve_eq_resolveFuel _ _ _ 0 (by decide)]
      decide)).2 "k" (by decide) (by decide)

/-- A well-formed dictionary: its keys are pairwise distinct, as is true of
every object produced by `json.loads`. -/
abbrev DocWF {α β : Type} (d : List (α × β)) : Prop := (d.map Prod.fst).Nodup

/-- Every document stored in a catalog is a parsed JSON object, hence has
distinct keys. -/
abbrev CatalogWF (cat : Catalog) : Prop := ∀ e ∈ cat, DocWF e.2

abbrev SysIndexWF (idx : SysIndex) : Prop :=
  CatalogWF idx.machine ∧ CatalogWF idx.process ∧ CatalogWF idx.filament

theorem subdirCatalogWF {idx : SysIndex} (h : SysIndexWF idx)
    (c : Category) : CatalogWF (subdirCatalog idx c) := by
  cases c
  · exact h.1
  · exact h.2.1
  · exact h.2.2

theorem alookup_isSome_iff_mem_keys {α β : Type} [DecidableEq α]
    (l : List (α × β)) (k : α) :
    (alookup l k).isSome ↔ k ∈ l.map Prod.fst := by
  induction l with
  | nil => simp [alookup]
  | cons e t ih =>
    by_cases he : e.1 = k
    · simp [alookup, he]
    · simp [alookup, he, ih, Ne.symm he]

theorem mem_of_alookup_eq_some {α β : Type} [DecidableEq α]
    {l : List (α × β)} {k : α} {v : β} (h : alookup l k = some v) :
    (k, v) ∈ l := by
  induction l with
  | nil => simp [alookup] at h
  | cons e t ih =>
    by_cases he : e.1 = k
    · rw [alookup, if_pos he] at h
      cases e with
      | mk a b =>
        simp at he h
        subst he
        subst h
        exact List.mem_cons_self _ _
    · rw [alookup, if_neg he] at h
      exact List.mem_cons_of_mem _ (ih h)

theorem alookup_of_mem_of_nodup {α β : Type} [DecidableEq α]
    {l : List (α × β)} {k : α} {v : β} (hWF : DocWF l) (h : (k, v) ∈ l) :
    alookup l k = some v := by
  induction l with
  | nil => simp at h
  | cons e t ih =>
    rcases List.mem_cons.1 h with he | ht
    · rw [← he, alookup, if_pos rfl]
    · have hk : k ∈ t.map Prod.fst := List.mem_map.2 ⟨(k, v), ht, rfl⟩
      have hne : e.1 ≠ k := by
        intro hc
        have := (List.nodup_cons.1 hWF).1
        rw [hc] at this
        exact this hk
      rw [alookup, if_neg hne]
      exact ih (List.nodup_cons.1 hWF).2 ht

theorem keys_map_set {α β : Type} [DecidableEq α]
    (d : List (α × β)) (k : α) (v : β) :
    (d.map (fun e => if e.1 = k then (k, v) else e)).map Prod.fst =
      d.map Prod.fst := by
  rw [List.map_map]
  apply List.map_congr_left
  intro e _
  by_cases he : e.1 = k
  · simp [he]
  · simp [he]

theorem DocWF_dset {α β : Type} [DecidableEq α]
    {d : List (α × β)} (hWF : DocWF d) (k : α) (v : β) :
    DocWF (dset d k v) := by
  rw [dset]
  by_cases hd : (alookup d k).isSome
  · rw [if_pos hd]
    unfold DocWF
    rw [keys_map_set]
    exact hWF
  · rw [if_neg hd]
    unfold DocWF
    rw [List.map_append]
    rw [List.nodup_append]
    refine ⟨hWF, List.nodup_singleton k, ?_⟩
    intro a ha hb
    simp at hb
    subst hb
    exact hd ((alookup_isSome_iff_mem_keys d a).2 ha)

theorem keys_dupdate_left {α β : Type} [DecidableEq α]
    (p c : List (α × β)) :
    (p.map (fun e =>
      match alookup c e.1 with
      | some v => (e.1, v)
      | none => e)).map Prod.fst = p.map Prod.fst := by
  rw [List.map_map]
  apply List.map_congr_left
  intro e _
  simp only [Function.comp_apply]
  cases alookup c e.1 <;> rfl

theorem DocWF_dupdate {α β : Type} [DecidableEq α]
    {p c : List (α × β)} (hp : DocWF p) (hc : DocWF c) :
    DocWF (dupdate p c) := by
  unfold DocWF dupdate
  rw [List.map_append, List.nodup_append, keys_dupdate_left]
  refine ⟨hp, ?_, ?_⟩
  · exact List.Nodup.sublist (List.Sublist.map _ (List.filter_sublist c)) hc
  · intro a ha hb
    rcases List.mem_map.1 hb with ⟨e, he, hek⟩
    have hnone := List.of_mem_filter he
    rw [hek] at hnone
    simp at hnone
    have hsome := (alookup_isSome_iff_mem_keys p a).2 ha
    rw [hnone] at hsome
    simp at hsome

theorem dset_eq_self {α β : Type} [DecidableEq α] {d : List (α × β)}
    {k : α} {v : β} (hWF : DocWF d) (h : alookup d k = some v) :
    dset d k v = d := by
  rw [dset, if_pos (by rw [h]; rfl)]
  conv_rhs => rw [← List.map_id d]
  apply List.map_congr_left
  intro e he
  by_cases hek : e.1 = k
  · cases e with
    | mk a b =>
      simp only at hek
      subst hek
      have hab := alookup_of_mem_of_nodup hWF he
      rw [h] at hab
      injection hab with hvb
      simp [hvb]
  · simp [hek]

theorem dupdate_absorb {α β : Type} [DecidableEq α] {p c : List (α × β)}
    (hp : DocWF p) : dupdate p (dupdate p c) = dupdate p c := by
  have hmap : p.map (fun e =>
      match alookup (dupdate p c) e.1 with
      | some v => (e.1, v)
      | none => e) =
      p.map (fun e =>
      match alookup c e.1 with
      | some v => (e.1, v)
      | none => e) := by
    apply List.map_congr_left
    intro e he
    have hpe : alookup p e.1 = some e.2 :=
      alookup_of_mem_of_nodup hp (by rw [Prod.mk.eta]; exact he)
    rw [alookup_dupdate]
    cases hce : alookup c e.1 with
    | some w => rfl
    | none => rw [hpe]
  have hfilter : (dupdate p c).filter (fun e => (alookup p e.1).isNone) =
      c.filter (fun e => (alookup p e.1).isNone) := by
    rw [dupdate, List.filter_append]
    have h1 : (p.map (fun e =>
        match alookup c e.1 with
        | some v => (e.1, v)
        | none => e)).filter (fun e => (alookup p e.1).isNone) = [] := by
      rw [List.filter_eq_nil_iff]
      intro a hmem
      rcases List.mem_map.1 hmem with ⟨e, he, hea⟩
      have hpe : alookup p e.1 = some e.2 :=
        alookup_of_mem_of_nodup hp (by rw [Prod.mk.eta]; exact he)
      have hka : a.1 = e.1 := by
        rw [← hea]
        cases alookup c e.1 <;> rfl
      rw [hka]
      simp [hpe]
    have h2 : (c.filter (fun e => (alookup p e.1).isNone)).filter
        (fun e => (alookup p e.1).isNone) =
        c.filter (fun e => (alookup p e.1).isNone) :=
      List.filter_eq_self.2 (fun a ha => (List.mem_filter.1 ha).2)
    rw [h1, h2, List.nil_append]
  rw [dupdate, hmap, hfilter, dupdate]

theorem DocWF_resolveFuel {cat : Catalog} (hcat : CatalogWF cat)
    (fuel : Nat) (name : JVal) (seen : Finset JVal) :
    DocWF (resolveFuel cat fuel name seen) := by
  induction fuel generalizing name seen with
  | zero => simp [resolveFuel, DocWF]
  | succ fuel ih =>
    by_cases hs : name ∈ seen
    · simp [resolveFuel, hs, DocWF]
    · cases hl : alookup cat name with
      | none => simp [resolveFuel, hs, hl, DocWF]
      | some obj =>
        rw [resolveFuel_of_indexed hs hl]
        have hobj : DocWF obj := hcat (name, obj) (mem_of_alookup_eq_some hl)
        cases alookup obj "inherits" with
        | none => exact hobj
        | some p =>
          dsimp only
          by_cases ht : p.truthy
          · rw [if_pos ht]
            exact DocWF_dupdate (ih _ _) hobj
          · rw [if_neg ht]
            exact hobj

theorem DocWF_resolve {cat : Catalog} (hcat : CatalogWF cat) (name : JVal)
    (seen : Finset JVal) : DocWF (resolve_system_profile cat name seen) := by
  rw [resolve_eq_resolveFuel cat name seen ((catalogKeys cat \ seen).card)
    le_rfl]
  exact DocWF_resolveFuel hcat _ _ _

theorem DocWF_stampMeta {d : Doc} (hWF : DocWF d) (c : Category) :
    DocWF (stampMeta c d) := by
  simp only [stampMeta]
  by_cases hv : validFrom
      (alookup (dset d "type" (.str (CATEGORY_TO_ORCA_TYPE c))) "from")
  · rw [if_pos hv]
    exact DocWF_dset hWF _ _
  · rw [if_neg hv]
    exact DocWF_dset (DocWF_dset hWF _ _) _ _

theorem stampMeta_stable {c : Category} {e : Doc} (hWF : DocWF e)
    (htype : alookup e "type" = some (.str (CATEGORY_TO_ORCA_TYPE c)))
    (hfrom : validFrom (alookup e "from") = true) :
    stampMeta c e = e := by
  simp only [stampMeta]
  rw [dset_eq_self hWF htype, if_pos hfrom]

theorem validFrom_isSome {o : Option JVal} (h : validFrom o = true) :
    o.isSome := by
  cases o with
  | none => simp [validFrom] at h
  | some v => rfl

/-- Claim C10: with a fixed catalog, normalization is idempotent — running
`ensure_orca_metadata` on its own output returns that output unchanged (the
`type`/`from` stamps are stable, re-resolving the same `inherits` name gives
the same base, and re-merging the already-merged document over that base
reproduces it, including key order). -/
theorem normalize_idempotent (idx : SysIndex) (c : Category) (d : Doc)
    (hd : DocWF d) (hidx : SysIndexWF idx) :
    ensure_orca_metadata idx c (ensure_orca_metadata idx c d) =
      ensure_orca_metadata idx c d := by
  have hcat : CatalogWF (subdirCatalog idx c) := subdirCatalogWF hidx c
  have hsm : DocWF (stampMeta c d) := DocWF_stampMeta hd c
  cases hi : alookup d "inherits" with
  | none =>
    rw [ensure_no_inherits hi]
    have hi2 : alookup (stampMeta c d) "inherits" = none := by
      rw [stampMeta_inherits, hi]
    rw [ensure_no_inherits hi2]
    exact stampMeta_stable hsm (stampMeta_type c d) (stampMeta_from_valid c d)
  | some iv =>
    by_cases ht : iv.truthy
    · by_cases hb : resolve_system_profile (subdirCatalog idx c) iv ∅ = []
      · rw [ensure_unresolved hi ht hb]
        have hi2 : alookup (stampMeta c d) "inherits" = some iv := by
          rw [stampMeta_inherits, hi]
        rw [ensure_unresolved hi2 ht hb]
        exact stampMeta_stable hsm (stampMeta_type c d)
          (stampMeta_from_valid c d)
      · have hbWF : DocWF (resolve_system_profile (subdirCatalog idx c) iv ∅) :=
          DocWF_resolve hcat _ _
        have hmWF : DocWF (dupdate
            (resolve_system_profile (subdirCatalog idx c) iv ∅)
            (stampMeta c d)) := DocWF_dupdate hbWF hsm
        have hmi : alookup (dupdate
            (resolve_system_profile (subdirCatalog idx c) iv ∅)
            (stampMeta c d)) "inherits" = some iv := by
          rw [alookup_dupdate, stampMeta_inherits, hi]
        have hout : ensure_orca_metadata idx c d = dupdate
            (resolve_system_profile (subdirCatalog idx c) iv ∅)
            (stampMeta c d) := by
          rw [ensure_merge hi ht hb, dset_eq_self hmWF hmi]
        have htype2 : alookup (dupdate
            (resolve_system_profile (subdirCatalog idx c) iv ∅)
            (stampMeta c d)) "type" =
            some (.str (CATEGORY_TO_ORCA_TYPE c)) := by
          rw [alookup_dupdate, stampMeta_type]
        have hfrom2 : validFrom (alookup (dupdate
            (resolve_system_profile (subdirCatalog idx c) iv ∅)
            (stampMeta c d)) "from") = true := by
          have hsv := stampMeta_from_valid c d
          rw [alookup_dupdate]
          cases hsf : alookup (stampMeta c d) "from" with
          | none =>
            have hss := validFrom_isSome hsv
            rw [hsf] at hss
            simp at hss
          | some w =>
            rw [hsf] at hsv
            exact hsv
        have hout_inh : alookup (ensure_orca_metadata idx c d) "inherits" =
            some iv := by
          rw [hout]
          exact hmi
        have houtWF : DocWF (ensure_orca_metadata idx c d) := by
          rw [hout]
          exact hmWF
        rw [ensure_merge hout_inh ht hb]
        have hsm2 : stampMeta c (ensure_orca_metadata idx c d) =
            ensure_orca_metadata idx c d := by
          apply stampMeta_stable houtWF
          · rw [hout]
            exact htype2
          · rw [hout]
            exact hfrom2
        rw [hsm2, hout, dupdate_absorb hbWF, dset_eq_self hmWF hmi]
    · have ht2 : iv.truthy = false := by
        cases h2 : iv.truthy
        · rfl
        · exact absurd h2 ht
      rw [ensure_falsy_inherits hi ht2]
      have hi2 : alookup (stampMeta c d) "inherits" = some iv := by
        rw [stampMeta_inherits, hi]
      rw [ensure_falsy_inherits hi2 ht2]
      exact stampMeta_stable hsm (stampMeta_type c d) (stampMeta_from_valid c d)

theorem normalize_idempotent_witness :
    ensure_orca_metadata idxEx .printer
      (ensure_orca_metadata idxEx .printer dOverrideEx) =
      ensure_orca_metadata idxEx .printer dOverrideEx :=
  normalize_idempotent idxEx .printer dOverrideEx (by decide)
    ⟨by decide, by decide, by decide⟩

/-- One JSON file encountered by the catalog scan
(`for json_file in cat_dir.rglob("*.json")`), in scan order: an abstract
path id plus the result of parsing it (`none` when `json.load` raises or the
parsed value is not an object, both of which the bare `except` swallows). -/
structure ScanFile where
  path : Nat
  parsed : Option Doc
deriving DecidableEq, Repr

/-- The loop body of `build_system_profile_index` for one category
subdirectory: record `name → path` when the file parsed, `name` is truthy,
and the name is not already recorded for this category. -/
def scanStep (idx : List (JVal × Nat)) (f : ScanFile) : List (JVal × Nat) :=
  match f.parsed with
  | none => idx
  | some obj =>
    match alookup obj "name" with
    | none => idx
    | some n =>
      if n.truthy && (alookup idx n).isNone then idx ++ [(n, f.path)]
      else idx

/-- `build_system_profile_index` restricted to one category subdirectory:
fold the scan step over the files in scan order, starting from the empty
index. -/
def build_system_profile_index (files : List ScanFile) :
    List (JVal × Nat) :=
  files.foldl scanStep []

/-- `f` is a file that would be recorded under name `n`: it parses, and its
`name` field is truthy and equal to `n`. -/
def recordsName (f : ScanFile) (n : JVal) : Bool :=
  match f.parsed with
  | none => false
  | some obj =>
    match alookup obj "name" with
    | none => false
    | some m => m.truthy && decide (m = n)

theorem scan_fold_alookup (files : List ScanFile) (acc : List (JVal × Nat))
    (n : JVal) :
    alookup (files.foldl scanStep acc) n =
      match alookup acc n with
      | some p => some p
      | none => (files.find? (fun f => recordsName f n)).map ScanFile.path := by
  induction files generalizing acc with
  | nil =>
    cases hacc : alookup acc n <;> simp [hacc]
  | cons f t ih =>
    rw [List.foldl_cons, ih]
    cases hp : f.parsed with
    | none =>
      have h1 : scanStep acc f = acc := by simp [scanStep, hp]
      have hrec : recordsName f n = false := by simp [recordsName, hp]
      rw [h1]
      simp [List.find?_cons, hrec]
    | some obj =>
      cases hn : alookup obj "name" with
      | none =>
        have h1 : scanStep acc f = acc := by simp [scanStep, hp, hn]
        have hrec : recordsName f n = false := by simp [recordsName, hp, hn]
        rw [h1]
        simp [List.find?_cons, hrec]
      | some m =>
        by_cases hm : m = n
        · subst hm
          have hrec : recordsName f m = m.truthy := by
            simp [recordsName, hp, hn]
          by_cases ht : m.truthy
          · cases hacc : alookup acc m with
            | some p =>
              have h1 : scanStep acc f = acc := by
                simp [scanStep, hp, hn, hacc]
              rw [h1, hacc]
            | none =>
              have h1 : scanStep acc f = acc ++ [(m, f.path)] := by
                simp [scanStep, hp, hn, hacc, ht]
              rw [h1, alookup_append, hacc]
              simp [alookup, List.find?_cons, hrec, ht]
          · have h1 : scanStep acc f = acc := by
              simp [scanStep, hp, hn, ht]
            rw [h1]
            simp [List.find?_cons, hrec, ht]
        · have hrec : recordsName f n = false := by
            simp [recordsName, hp, hn, hm]
          have h2 : alookup (scanStep acc f) n = alookup acc n := by
            simp only [scanStep, hp, hn]
            by_cases hc : (m.truthy && (alookup acc m).isNone)
            · rw [if_pos hc, alookup_append]
              cases hacc : alookup acc n with
              | some p => rfl
              | none => simp [alookup, hm]
            · rw [if_neg hc]
          rw [h2]
          simp [List.find?_cons, hrec]

/-- Claim C9: during catalog construction, a name maps to a path exactly
when some scanned file parses with that (truthy, i.e. non-empty) `name` and,
among such files, the first one in scan order wins — `alookup` on the built
index equals `find?` over the scan list.  A file that fails to parse is
skipped and does not abort or alter the rest of the scan. -/
theorem catalog_build_contract :
    (∀ (files : List ScanFile) (n : JVal),
      alookup (build_system_profile_index files) n =
        (files.find? (fun f => recordsName f n)).map ScanFile.path)
    ∧ ∀ (pre post : List ScanFile) (f : ScanFile), f.parsed = none →
        build_system_profile_index (pre ++ f :: post) =
          build_system_profile_index (pre ++ post) := by
  constructor
  · intro files n
    rw [build_system_profile_index, scan_fold_alookup]
    rfl
  · intro pre post f hf
    rw [build_system_profile_index, build_system_profile_index,
      List.foldl_append, List.foldl_append, List.foldl_cons]
    have h1 : scanStep (List.foldl scanStep [] pre) f =
        List.foldl scanStep [] pre := by
      simp [scanStep, hf]
    rw [h1]

def scanGoodEx : ScanFile := ⟨1, some [("name", .str "alpha"),
  ("layer", .str "x")]⟩

def scanDupEx : ScanFile := ⟨2, some [("name", .str "alpha")]⟩

def scanBadEx : ScanFile := ⟨3, none⟩

theorem catalog_build_contract_witness :
    scanBadEx.parsed = none ∧
    build_system_profile_index ([scanGoodEx] ++ scanBadEx :: [scanDupEx]) =
      build_system_profile_index ([scanGoodEx] ++ [scanDupEx]) :=
  ⟨rfl, catalog_build_contract.2 [scanGoodEx] [scanDupEx] scanBadEx rfl⟩

/-- The ASCII fragment of Python `str.lower`, applied per character.
Non-ASCII case mappings are out of scope: every character the sanitizer or
the extension check ultimately accepts is ASCII, and a character this map
leaves unchanged is rejected the same way Python rejects its lowercase
form. -/
def pyLower (c : Char) : Char :=
  if 65 ≤ c.toNat ∧ c.toNat ≤ 90 then Char.ofNat (c.toNat + 32) else c

/-- Python `str.strip()`: drop whitespace from both ends. -/
def stripWS (s : String) : String :=
  String.mk (((s.data.dropWhile Char.isWhitespace).reverse.dropWhile
    Char.isWhitespace).reverse)

/-- `model_filename.lower().endswith((".stl", ".3mf"))`. -/
def hasModelExt (s : String) : Bool :=
  List.isSuffixOf ".stl".data (s.data.map pyLower)
  || List.isSuffixOf ".3mf".data (s.data.map pyLower)

/-- The `current_job` global: `{"busy": ..., "model": ..., "started": ...}`. -/
structure CurrentJob where
  busy : Bool
  model : Option String
  started : Option Nat
deriving DecidableEq, Repr

/-- The idle value of `current_job` (its initial value, restored by the
`finally` block). -/
def IDLE_JOB : CurrentJob := ⟨false, none, none⟩

/-- The server state the `/api/slice` handler reads and writes: whether
`slice_lock` is held, the `current_job` fields, the profile files on disk
(category/name pairs under `PROFILES_DIR`), and the workspace directories
existing under `TEMP_DIR`. -/
structure ServerState where
  lockHeld : Bool
  job : CurrentJob
  profiles : List (String × String)
  tempDirs : List String
deriving DecidableEq, Repr

/-- One `/api/slice` request: whether a `model` part is present, its
filename, and the three profile form fields (pre-`strip`). -/
structure SliceRequest where
  hasModelFile : Bool
  modelFilename : String
  printer : String
  process : String
  filament : String
deriving DecidableEq, Repr

/-- What the external engine invocation did, abstracting
`subprocess.run`: provisioning raised before/after creating the workspace,
the process exited (with the listed `*.gcode` files in the output dir and an
exit code), the timeout fired, or some other exception was raised. -/
inductive EngineOutcome where
  | provisionError (dirMade : Bool)
  | exited (gcodeFiles : List String) (exitCode : Int)
  | timeout
  | raised
deriving DecidableEq, Repr

/-- The response vocabulary of the `/api/slice` handler (status codes
400/404/409/500/504/200 in the code). -/
inductive SliceResponse where
  | badRequest (msg : String)
  | notFound (msg : String)
  | busy
  | noOutput (exitCode : Int)
  | timeoutError
  | internalError
  | ok (gcodeName : String)
deriving DecidableEq, Repr

def SLICE_TIMEOUT : Nat := 300

/-- `get_profile_path(category, name).exists()`. -/
def profileExists (st : ServerState) (category name : String) : Bool :=
  decide ((category, name) ∈ st.profiles)

/-- Whether the job workspace directory existed by the time the `finally`
block ran (`job_dir.mkdir` may not have been reached when provisioning
failed). -/
def dirMade : EngineOutcome → Bool
  | .provisionError created => created
  | _ => true

/-- The response produced inside the admitted region, per engine outcome:
exceptions map to 500, timeout to 504, an exit with no `*.gcode` files to
the no-output 500, and otherwise the first gcode file is returned. -/
def engineResponse : EngineOutcome → SliceResponse
  | .provisionError _ => .internalError
  | .raised => .internalError
  | .timeout => .timeoutError
  | .exited gcodeFiles exitCode =>
    match gcodeFiles with
    | [] => .noOutput exitCode
    | g :: _ => .ok g

/-- Big-step model of the `slice_model` route handler: the validation
chain, the non-blocking lock acquire, and — once admitted — the
try/except/finally region, whose observable effect is the per-outcome
response together with the cleaned-up state (the `finally` block always
clears `current_job`, removes the workspace if it exists, and releases the
lock, so the intermediate `admitted`/`provisioned` states are internal). -/
def slice_model (st : ServerState) (req : SliceRequest) (jobId : String)
    (now : Nat) (outcome : EngineOutcome) : SliceResponse × ServerState :=
  if !req.hasModelFile then
    (.badRequest "No model file provided. Use multipart field model.", st)
  else if req.modelFilename.isEmpty then
    (.badRequest "Empty model filename", st)
  else if !hasModelExt req.modelFilename then
    (.badRequest "Model must be an STL or 3MF file", st)
  else
    let printer_name := stripWS req.printer
    let process_name := stripWS req.process
    let filament_name := stripWS req.filament
    if printer_name.isEmpty || process_name.isEmpty ||
        filament_name.isEmpty then
      (.badRequest "All three profile names required: printer, process, filament", st)
    else
      let missing :=
        (if !profileExists st "printer" printer_name then
          ["printer/" ++ printer_name] else [])
        ++ (if !profileExists st "process" process_name then
          ["process/" ++ process_name] else [])
        ++ (if !profileExists st "filament" filament_name then
          ["filament/" ++ filament_name] else [])
      if !missing.isEmpty then
        (.notFound ("Profiles not found: " ++ String.intercalate ", " missing),
          st)
      else if st.lockHeld then
        (.busy, st)
      else
        let admitted : ServerState :=
          { st with lockHeld := true,
                    job := ⟨true, some req.modelFilename, some now⟩ }
        let provisioned : ServerState :=
          { admitted with
              tempDirs := if dirMade outcome then admitted.tempDirs ++ [jobId]
                else admitted.tempDirs }
        let cleaned : ServerState :=
          { provisioned with
              job := IDLE_JOB,
              tempDirs := provisioned.tempDirs.filter (fun d2 => d2 != jobId),
              lockHeld := false }
        (engineResponse outcome, cleaned)

/-- The admission preconditions of `/api/slice` that run before the lock is
tried: model part present, filename non-empty with a recognized extension,
all three names non-empty after stripping, and all three profile files on
disk. -/
def precondOk (st : ServerState) (req : SliceRequest) : Bool :=
  req.hasModelFile && !req.modelFilename.isEmpty
  && hasModelExt req.modelFilename
  && !(stripWS req.printer).isEmpty && !(stripWS req.process).isEmpty
  && !(stripWS req.filament).isEmpty
  && profileExists st "printer" (stripWS req.printer)
  && profileExists st "process" (stripWS req.process)
  && profileExists st "filament" (stripWS req.filament)

theorem filter_jobId_append (l : List String) (jobId : String) (b : Bool) :
    (if b then l ++ [jobId] else l).filter (fun d2 => d2 != jobId) =
      l.filter (fun d2 => d2 != jobId) := by
  cases b
  · rfl
  · simp [List.filter_append]

theorem slice_model_admitted (st : ServerState) (req : SliceRequest)
    (jobId : String) (now : Nat) (outcome : EngineOutcome)
    (hp : precondOk st req = true) (hl : st.lockHeld = false) :
    slice_model st req jobId now outcome =
      (engineResponse outcome,
        { lockHeld := false, job := IDLE_JOB, profiles := st.profiles,
          tempDirs := st.tempDirs.filter (fun d2 => d2 != jobId) }) := by
  simp only [precondOk, Bool.and_eq_true] at hp
  obtain ⟨⟨⟨⟨⟨⟨⟨⟨h1, h2⟩, h3⟩, h4⟩, h5⟩, h6⟩, h7⟩, h8⟩, h9⟩ := hp
  rw [Bool.not_eq_true'] at h2 h4 h5 h6
  rw [slice_model]
  simp only [h1, h2, h3, h4, h5, h6, h7, h8, h9, hl, Bool.not_true,
    Bool.not_false, if_true, if_false, Bool.false_eq_true, Bool.or_self,
    Bool.or_false, Bool.false_or, List.append_nil, List.nil_append,
    List.isEmpty_nil, ite_false, ite_true]
  rw [filter_jobId_append]

theorem engineResponse_ne_busy (o : EngineOutcome) :
    engineResponse o ≠ SliceResponse.busy := by
  cases o with
  | exited g c => cases g <;> simp [engineResponse]
  | provisionError b => simp [engineResponse]
  | timeout => simp [engineResponse]
  | raised => simp [engineResponse]

/-- Claim C2: for every admitted job (preconditions pass, lock free),
whatever the engine outcome — gcode produced, exit with no output,
provisioning failure, timeout, or any other exception — the `finally` block
leaves the lock released, the `current_job` fields reset to idle, and the
job workspace deleted; the stored profiles are untouched, the response is
never the busy signal, and a subsequent submission that passes its own
preconditions is admitted (not rejected busy). -/
theorem slice_cleanup_always (st : ServerState) (req : SliceRequest)
    (jobId : String) (now : Nat) (outcome : EngineOutcome)
    (hp : precondOk st req = true) (hl : st.lockHeld = false) :
    (slice_model st req jobId now outcome).2.lockHeld = false
    ∧ (slice_model st req jobId now outcome).2.job = IDLE_JOB
    ∧ (slice_model st req jobId now outcome).2.tempDirs =
        st.tempDirs.filter (fun d2 => d2 != jobId)
    ∧ jobId ∉ (slice_model st req jobId now outcome).2.tempDirs
    ∧ (slice_model st req jobId now outcome).2.profiles = st.profiles
    ∧ (slice_model st req jobId now outcome).1 ≠ SliceResponse.busy
    ∧ ∀ (req2 : SliceRequest) (jobId2 : String) (now2 : Nat)
        (outcome2 : EngineOutcome),
        precondOk (slice_model st req jobId now outcome).2 req2 = true →
        (slice_model (slice_model st req jobId now outcome).2 req2 jobId2
          now2 outcome2).1 ≠ SliceResponse.busy := by
  rw [slice_model_admitted st req jobId now outcome hp hl]
  refine ⟨rfl, rfl, rfl, ?_, rfl, engineResponse_ne_busy outcome, ?_⟩
  · simp [List.mem_filter]
  · intro req2 jobId2 now2 outcome2 hp2
    rw [slice_model_admitted _ req2 jobId2 now2 outcome2 hp2 rfl]
    exact engineResponse_ne_busy outcome2

def stIdleEx : ServerState := ⟨false, IDLE_JOB,
  [("printer", "p1"), ("process", "p2"), ("filament", "f1")], []⟩

def reqGoodEx : SliceRequest := ⟨true, "cube.stl", "p1", "p2", "f1"⟩

theorem slice_cleanup_always_witness :
    precondOk stIdleEx reqGoodEx = true ∧
    (slice_model stIdleEx reqGoodEx "job-7" 3
      (.exited ["out.gcode"] 0)).2.lockHeld = false :=
  ⟨by decide, (slice_cleanup_always stIdleEx reqGoodEx "job-7" 3
    (.exited ["out.gcode"] 0) (by decide) rfl).1⟩

/-- Claim C3 (amended): while the execution slot is held, a submission that
passes the precondition checks fails immediately with the busy signal and
the state — `current_job` fields, profiles, workspaces — is unchanged; a
submission that fails a precondition check is rejected with that check's
error before the lock is ever consulted, and also leaves the state
unchanged. -/
theorem slice_busy_rejects (st : ServerState) (req : SliceRequest)
    (jobId : String) (now : Nat) (outcome : EngineOutcome)
    (hl : st.lockHeld = true) :
    (precondOk st req = true →
        slice_model st req jobId now outcome = (SliceResponse.busy, st))
    ∧ (slice_model st req jobId now outcome).2 = st := by
  constructor
  · intro hp
    simp only [precondOk, Bool.and_eq_true] at hp
    obtain ⟨⟨⟨⟨⟨⟨⟨⟨h1, h2⟩, h3⟩, h4⟩, h5⟩, h6⟩, h7⟩, h8⟩, h9⟩ := hp
    rw [Bool.not_eq_true'] at h2 h4 h5 h6
    rw [slice_model]
    simp only [h1, h2, h3, h4, h5, h6, h7, h8, h9, hl, Bool.not_true,
      Bool.not_false, if_true, if_false, Bool.false_eq_true, Bool.or_self,
      Bool.or_false, Bool.false_or, List.append_nil, List.nil_append,
      List.isEmpty_nil, ite_false, ite_true]
  · rw [slice_model]
    simp only [hl]
    repeat (first | rfl | split)

/-- A server state with an active job holding the slot. -/
def stBusyEx : ServerState := ⟨true, ⟨true, some "cube.stl", some 5⟩,
  [("printer", "p1"), ("process", "p2"), ("filament", "f1")], ["job-1"]⟩

/-- A submission whose model filename has an unrecognized extension. -/
def reqBadExtEx : SliceRequest := ⟨true, "cube.txt", "p1", "p2", "f1"⟩

/-- Counterexample to claim C3 as stated: a submission arriving while the
slot is held, but with a `.txt` model filename, is rejected by the
extension check (400) — not with the busy signal — because the validation
chain runs before the lock is tried. -/
theorem slice_busy_not_always_busy :
    stBusyEx.lockHeld = true ∧
    (slice_model stBusyEx reqBadExtEx "job-2" 9 (.exited [] 0)).1 ≠
      SliceResponse.busy := by
  constructor
  · rfl
  · decide

theorem slice_busy_rejects_witness :
    precondOk stBusyEx reqGoodEx = true ∧
    slice_model stBusyEx reqGoodEx "job-2" 9 EngineOutcome.timeout =
      (SliceResponse.busy, stBusyEx) :=
  ⟨by decide, (slice_busy_rejects stBusyEx reqGoodEx "job-2" 9
    EngineOutcome.timeout rfl).1 (by decide)⟩

/-- The character class `[a-z0-9-]` of `sanitize_profile_name`'s regex, by
code point. -/
def isAllowedChar (c : Char) : Bool :=
  decide ((97 ≤ c.toNat ∧ c.toNat ≤ 122) ∨ (48 ≤ c.toNat ∧ c.toNat ≤ 57)
    ∨ c = '-')

/-- `re.sub(r"[^a-z0-9-]", "-", ...)` applied per character. -/
def replDisallowed (c : Char) : Char := if isAllowedChar c then c else '-'

/-- `re.sub(r"-+", "-", ...)`: collapse each run of dashes to a single
dash. -/
def collapseDashes : List Char → List Char
  | [] => []
  | [c] => [c]
  | c :: d :: t =>
    if c = '-' ∧ d = '-' then collapseDashes (d :: t)
    else c :: collapseDashes (d :: t)

/-- The right half of `str.strip("-")`: drop the trailing run of dashes. -/
def dropDashEnd : List Char → List Char
  | [] => []
  | c :: t =>
    if (dropDashEnd t).isEmpty then (if c = '-' then [] else [c])
    else c :: dropDashEnd t

/-- `sanitize_profile_name` on the character list: lowercase, replace
disallowed characters with dashes, collapse dash runs, strip dashes from
both ends, truncate to 100 characters — in the code's order. -/
def sanitizeL (cs : List Char) : List Char :=
  (dropDashEnd ((collapseDashes
    ((cs.map pyLower).map replDisallowed)).dropWhile
      (fun c => c == '-'))).take 100

def sanitize_profile_name (s : String) : String := String.mk (sanitizeL s.data)

/-- Whether a character list ends with a dash. -/
def lastIsDash : List Char → Bool
  | [] => false
  | [c] => c == '-'
  | _ :: d :: t => lastIsDash (d :: t)

/-- No two adjacent dashes. -/
def NoDD (l : List Char) : Prop := l.Chain' (fun a b => ¬(a = '-' ∧ b = '-'))

theorem isAllowedChar_repl (c : Char) :
    isAllowedChar (replDisallowed c) = true := by
  rw [replDisallowed]
  by_cases h : isAllowedChar c
  · rw [if_pos h]
    exact h
  · rw [if_neg h]
    decide

theorem pyLower_allowed {c : Char} (h : isAllowedChar c = true) :
    pyLower c = c := by
  rw [isAllowedChar, decide_eq_true_iff] at h
  have hng : ¬ (65 ≤ c.toNat ∧ c.toNat ≤ 90) := by
    rcases h with h1 | h1 | h1
    · omega
    · omega
    · subst h1
      decide
  rw [pyLower, if_neg hng]

theorem repl_allowed {c : Char} (h : isAllowedChar c = true) :
    replDisallowed c = c := by
  rw [replDisallowed, if_pos h]

theorem map_pyLower_id {l : List Char}
    (h : ∀ c ∈ l, isAllowedChar c = true) : l.map pyLower = l := by
  conv_rhs => rw [← List.map_id l]
  apply List.map_congr_left
  intro c hc
  simp [pyLower_allowed (h c hc)]

theorem map_repl_id {l : List Char}
    (h : ∀ c ∈ l, isAllowedChar c = true) : l.map replDisallowed = l := by
  conv_rhs => rw [← List.map_id l]
  apply List.map_congr_left
  intro c hc
  simp [repl_allowed (h c hc)]

theorem mem_collapseDashes (c : Char) :
    ∀ l : List Char, c ∈ collapseDashes l → c ∈ l
  | [] => fun h => h
  | [_] => fun h => h
  | a :: b :: t => by
    intro h
    rw [collapseDashes] at h
    by_cases hd : a = '-' ∧ b = '-'
    · rw [if_pos hd] at h
      exact List.mem_cons_of_mem _ (mem_collapseDashes c (b :: t) h)
    · rw [if_neg hd] at h
      rcases List.mem_cons.1 h with h1 | h1
      · simp [h1]
      · exact List.mem_cons_of_mem _ (mem_collapseDashes c (b :: t) h1)

theorem mem_dropDashEnd (c : Char) :
    ∀ l : List Char, c ∈ dropDashEnd l → c ∈ l
  | [] => fun h => h
  | a :: t => by
    intro h
    rw [dropDashEnd] at h
    by_cases hr : (dropDashEnd t).isEmpty
    · rw [if_pos hr] at h
      by_cases ha : a = '-'
      · rw [if_pos ha] at h
        exact absurd h (List.not_mem_nil c)
      · rw [if_neg ha] at h
        simp at h
        simp [h]
    · rw [if_neg hr] at h
      rcases List.mem_cons.1 h with h1 | h1
      · simp [h1]
      · exact List.mem_cons_of_mem _ (mem_dropDashEnd c t h1)

theorem collapse_head (c : Char) :
    ∀ t : List Char, (collapseDashes (c :: t)).head? = some c := by
  intro t
  induction t generalizing c with
  | nil => rfl
  | cons d t ih =>
    rw [collapseDashes]
    by_cases hd : c = '-' ∧ d = '-'
    · rw [if_pos hd, ih d, hd.1, hd.2]
    · rw [if_neg hd]
      rfl

theorem collapse_chain : ∀ l : List Char, NoDD (collapseDashes l)
  | [] => List.chain'_nil
  | [c] => List.chain'_singleton c
  | c :: d :: t => by
    by_cases hd : c = '-' ∧ d = '-'
    · rw [NoDD, collapseDashes, if_pos hd]
      exact collapse_chain (d :: t)
    · rw [NoDD, collapseDashes, if_neg hd]
      refine List.chain'_cons'.2 ⟨?_, collapse_chain (d :: t)⟩
      intro y hy
      rw [collapse_head d t] at hy
      simp at hy
      subst hy
      exact hd

theorem collapse_eq_self : ∀ l : List Char, NoDD l → collapseDashes l = l
  | [] => fun _ => rfl
  | [_] => fun _ => rfl
  | c :: d :: t => fun h => by
    have hcd := (List.chain'_cons.1 h).1
    rw [collapseDashes, if_neg hcd,
      collapse_eq_self (d :: t) (List.chain'_cons.1 h).2]

theorem NoDD_dropWhile (p : Char → Bool) :
    ∀ l : List Char, NoDD l → NoDD (l.dropWhile p)
  | [] => fun h => h
  | c :: t => fun h => by
    by_cases hp : p c = true
    · rw [List.dropWhile_cons, if_pos hp]
      exact NoDD_dropWhile p t (List.chain'_cons'.1 h).2
    · rw [List.dropWhile_cons, if_neg hp]
      exact h

theorem head_dropDashEnd :
    ∀ l : List Char, dropDashEnd l = [] ∨
      (dropDashEnd l).head? = l.head?
  | [] => Or.inl rfl
  | c :: t => by
    rw [dropDashEnd]
    by_cases hr : (dropDashEnd t).isEmpty
    · rw [if_pos hr]
      by_cases hc : c = '-'
      · rw [if_pos hc]
        exact Or.inl rfl
      · rw [if_neg hc]
        exact Or.inr rfl
    · rw [if_neg hr]
      exact Or.inr rfl

theorem lastIsDash_dropDashEnd :
    ∀ l : List Char, lastIsDash (dropDashEnd l) = false
  | [] => rfl
  | c :: t => by
    have ih := lastIsDash_dropDashEnd t
    rw [dropDashEnd]
    by_cases hr : (dropDashEnd t).isEmpty
    · rw [if_pos hr]
      by_cases hc : c = '-'
      · rw [if_pos hc]
        rfl
      · rw [if_neg hc]
        simpa [lastIsDash] using hc
    · rw [if_neg hr]
      cases hde : dropDashEnd t with
      | nil => simp [hde] at hr
      | cons r rs =>
        rw [hde] at ih
        simpa [lastIsDash] using ih

theorem dropDashEnd_eq_self :
    ∀ l : List Char, lastIsDash l = false → dropDashEnd l = l
  | [] => fun _ => rfl
  | [c] => fun h => by
    have hc : ¬ c = '-' := by simpa [lastIsDash] using h
    simp [dropDashEnd, hc]
  | c :: d :: t => fun h => by
    have ih := dropDashEnd_eq_self (d :: t) (by simpa [lastIsDash] using h)
    rw [dropDashEnd, ih]
    simp

theorem NoDD_dropDashEnd : ∀ l : List Char, NoDD l → NoDD (dropDashEnd l)
  | [] => fun h => h
  | c :: t => fun h => by
    have ih := NoDD_dropDashEnd t (List.chain'_cons'.1 h).2
    rw [dropDashEnd]
    by_cases hr : (dropDashEnd t).isEmpty
    · rw [if_pos hr]
      by_cases hc : c = '-'
      · rw [if_pos hc]
        exact List.chain'_nil
      · rw [if_neg hc]
        exact List.chain'_singleton c
    · rw [if_neg hr]
      cases hde : dropDashEnd t with
      | nil => simp [hde] at hr
      | cons r rs =>
        rw [hde] at ih
        cases t with
        | nil => simp [dropDashEnd] at hde
        | cons b tb =>
          have hhead : (dropDashEnd (b :: tb)).head? = some b := by
            rcases head_dropDashEnd (b :: tb) with he | he
            · rw [he] at hde
              cases hde
            · rw [he]
              rfl
          rw [hde] at hhead
          simp at hhead
          subst hhead
          exact List.chain'_cons.2 ⟨(List.chain'_cons.1 h).1, ih⟩

theorem head_dropWhile_not (p : Char → Bool) :
    ∀ (l : List Char) (c : Char), (l.dropWhile p).head? = some c →
      p c = false
  | [] => by
    intro c h
    simp [List.dropWhile] at h
  | a :: t => by
    intro c h
    rw [List.dropWhile_cons] at h
    by_cases hp : p a = true
    · rw [if_pos hp] at h
      exact head_dropWhile_not p t c h
    · rw [if_neg hp] at h
      have hac : a = c := by simpa using h
      rw [← hac]
      cases hb : p a with
      | false => rfl
      | true => exact absurd hb hp

theorem sanitizeL_goodChars (cs : List Char) :
    ∀ c ∈ sanitizeL cs, isAllowedChar c = true := by
  intro c hc
  rw [sanitizeL] at hc
  have h1 := (List.take_sublist 100 _).subset hc
  have h2 := mem_dropDashEnd c _ h1
  have h3 := (List.dropWhile_sublist _).subset h2
  have h4 := mem_collapseDashes c _ h3
  rcases List.mem_map.1 h4 with ⟨x, _, hx⟩
  rw [← hx]
  exact isAllowedChar_repl x

theorem sanitizeL_NoDD (cs : List Char) : NoDD (sanitizeL cs) := by
  rw [sanitizeL]
  exact List.Chain'.take
    (NoDD_dropDashEnd _ (NoDD_dropWhile _ _ (collapse_chain _))) 100

theorem head_take_succ {α : Type} (l : List α) (n : Nat) :
    (l.take (n + 1)).head? = l.head? := by
  cases l <;> simp

theorem sanitizeL_head_not_dash (cs : List Char) :
    ∀ c : Char, (sanitizeL cs).head? = some c → c ≠ '-' := by
  intro c hc
  rw [sanitizeL] at hc
  rw [show (100 : Nat) = 99 + 1 from rfl, head_take_succ] at hc
  rcases head_dropDashEnd ((collapseDashes
      ((cs.map pyLower).map replDisallowed)).dropWhile
        (fun c => c == '-')) with he | he
  · rw [he] at hc
    cases hc
  · rw [he] at hc
    have := head_dropWhile_not _ _ c hc
    simpa using this

theorem sanitizeL_len (cs : List Char) : (sanitizeL cs).length ≤ 100 := by
  rw [sanitizeL, List.length_take]
  exact min_le_left _ _

/-- On an already-clean list — allowed characters only, no dash runs, no
leading or trailing dash, at most 100 characters — the sanitizer is the
identity. -/
theorem sanitizeL_of_clean (l : List Char)
    (hgood : ∀ c ∈ l, isAllowedChar c = true)
    (hNoDD : NoDD l)
    (hhead : ∀ c : Char, l.head? = some c → c ≠ '-')
    (hlast : lastIsDash l = false)
    (hlen : l.length ≤ 100) :
    sanitizeL l = l := by
  rw [sanitizeL, map_pyLower_id hgood, map_repl_id hgood,
    collapse_eq_self l hNoDD]
  have hdw : List.dropWhile (fun c => c == '-') l = l := by
    cases l with
    | nil => rfl
    | cons a t =>
      have ha : a ≠ '-' := hhead a rfl
      rw [List.dropWhile_cons, if_neg (by simpa using ha)]
  rw [hdw, dropDashEnd_eq_self l hlast, List.take_of_length_le hlen]

/-- The sanitizer is idempotent on every output that does not end in a
dash (a trailing dash can only be produced by the 100-character truncation
cutting a name right after a dash, since stripping runs before
truncation). -/
theorem sanitizeL_idem (cs : List Char)
    (h : lastIsDash (sanitizeL cs) = false) :
    sanitizeL (sanitizeL cs) = sanitizeL cs :=
  sanitizeL_of_clean _ (sanitizeL_goodChars cs) (sanitizeL_NoDD cs)
    (sanitizeL_head_not_dash cs) h (sanitizeL_len cs)

theorem sanitize_idem (x : String)
    (h : lastIsDash (sanitize_profile_name x).data = false) :
    sanitize_profile_name (sanitize_profile_name x) =
      sanitize_profile_name x :=
  congrArg String.mk (sanitizeL_idem x.data h)

/-- The name chosen by `upload_profile`: the stripped `name` form field,
falling back to the uploaded file's stem when empty, then sanitized. -/
def uploadName (formName fileStem : String) : String :=
  sanitize_profile_name
    (if (stripWS formName).isEmpty then fileStem else stripWS formName)

/-- Effect of POST `upload_profile` on the set of stored profile stems of
one category: reject an empty sanitized name (400) or an existing name
(409), otherwise create the file under the sanitized name. -/
def upload_profile (store : List String) (formName fileStem : String) :
    List String :=
  if (uploadName formName fileStem).isEmpty then store
  else if uploadName formName fileStem ∈ store then store
  else store ++ [uploadName formName fileStem]

/-- Effect of PUT `replace_profile` on the stored stems: the URL path name
is written verbatim — `path.write_bytes` creates the file if absent,
without sanitizing or checking the name. -/
def replace_profile (store : List String) (name : String) : List String :=
  if name ∈ store then store else store ++ [name]

/-- Effect of PATCH `rename_profile` on the stored stems: 404 when the old
name is absent, 400 when the sanitized new name is empty, no-op when it
equals the old name, 409 when it already exists, otherwise rename. -/
def rename_profile (store : List String) (name newNameRaw : String) :
    List String :=
  if name ∉ store then store
  else if (sanitize_profile_name newNameRaw).isEmpty then store
  else if sanitize_profile_name newNameRaw = name then store
  else if sanitize_profile_name newNameRaw ∈ store then store
  else store.map (fun s => if s = name then sanitize_profile_name newNameRaw
    else s)

theorem store_append_inv {store : List String} {n : String}
    (hfix : ∀ s ∈ store, sanitize_profile_name s = s) (hnd : store.Nodup)
    (hn : sanitize_profile_name n = n) (hmem : n ∉ store) :
    (∀ s ∈ store ++ [n], sanitize_profile_name s = s)
    ∧ (store ++ [n]).Nodup := by
  constructor
  · intro s hs
    rcases List.mem_append.1 hs with h | h
    · exact hfix s h
    · simp at h
      subst h
      exact hn
  · rw [List.nodup_append]
    refine ⟨hnd, List.nodup_singleton n, ?_⟩
    intro a ha hb
    simp at hb
    subst hb
    exact hmem ha

theorem nodup_map_replace {store : List String} {old nw : String}
    (hn : store.Nodup) (hnew : nw ∉ store) :
    (store.map (fun s => if s = old then nw else s)).Nodup := by
  induction store with
  | nil => simp
  | cons a t ih =>
    rcases List.nodup_cons.1 hn with ⟨ha, ht⟩
    have hnew2 : nw ∉ t := fun h => hnew (List.mem_cons_of_mem _ h)
    have hnewa : nw ≠ a := fun h => hnew (h ▸ List.mem_cons_self a t)
    rw [List.map_cons]
    refine List.nodup_cons.2 ⟨?_, ih ht hnew2⟩
    intro hmem
    rcases List.mem_map.1 hmem with ⟨b, hb, hfb⟩
    by_cases hao : a = old
    · rw [if_pos hao] at hfb
      by_cases hbo : b = old
      · rw [if_pos hbo] at hfb
        exact ha ((hbo.trans hao.symm) ▸ hb)
      · rw [if_neg hbo] at hfb
        exact hnew2 (hfb ▸ hb)
    · rw [if_neg hao] at hfb
      by_cases hbo : b = old
      · rw [if_pos hbo] at hfb
        exact hnewa hfb
      · rw [if_neg hbo] at hfb
        exact ha (hfb ▸ hb)

/-- A name that sanitizes to 99 `a`s followed by `-b` (101 characters), so
that the 100-character truncation leaves a trailing dash. -/
def longNameEx : String := String.mk (List.replicate 99 'a' ++ ['-', 'b'])

set_option maxRecDepth 4000 in
/-- Counterexample to claim C6 as stated: PUT writes the caller-supplied
name verbatim, so replacing under the unsanitized name `B` stores a stem
that is not its own sanitized form; and even POST upload can store a
non-fixpoint stem when the 100-character truncation cuts right after a
dash. -/
theorem profile_name_invariant_cex :
    (∀ s ∈ ["a"], sanitize_profile_name s = s)
    ∧ ¬ (∀ s ∈ replace_profile ["a"] "B", sanitize_profile_name s = s)
    ∧ ¬ (∀ s ∈ upload_profile [] longNameEx "",
        sanitize_profile_name s = s) := by
  decide

/-- Claim C6 (amended): upload and rename store only sanitized names, and a
sanitized name is a fixpoint of the sanitizer whenever it does not end in a
dash (a trailing dash arises only when the 100-character truncation cuts
right after a dash — stripping runs before truncation); both refuse to
overwrite a different existing profile, preserving uniqueness.  PUT
replacement writes the caller-supplied name verbatim, so it preserves the
stored-name invariant only when that name is already its own sanitized
form. -/
theorem profile_name_invariant_amended :
    (∀ (store : List String) (formName fileStem : String),
      (∀ s ∈ store, sanitize_profile_name s = s) → store.Nodup →
      lastIsDash (uploadName formName fileStem).data = false →
      (∀ s ∈ upload_profile store formName fileStem,
        sanitize_profile_name s = s)
      ∧ (upload_profile store formName fileStem).Nodup)
    ∧ (∀ (store : List String) (name newRaw : String),
      (∀ s ∈ store, sanitize_profile_name s = s) → store.Nodup →
      lastIsDash (sanitize_profile_name newRaw).data = false →
      (∀ s ∈ rename_profile store name newRaw,
        sanitize_profile_name s = s)
      ∧ (rename_profile store name newRaw).Nodup)
    ∧ (∀ (store : List String) (name : String),
      (∀ s ∈ store, sanitize_profile_name s = s) → store.Nodup →
      sanitize_profile_name name = name →
      (∀ s ∈ replace_profile store name, sanitize_profile_name s = s)
      ∧ (replace_profile store name).Nodup) := by
  refine ⟨?_, ?_, ?_⟩
  · intro store fn fs hfix hnd hld
    rw [upload_profile]
    by_cases h0 : (uploadName fn fs).isEmpty
    · rw [if_pos h0]
      exact ⟨hfix, hnd⟩
    · rw [if_neg h0]
      by_cases h1 : uploadName fn fs ∈ store
      · rw [if_pos h1]
        exact ⟨hfix, hnd⟩
      · rw [if_neg h1]
        exact store_append_inv hfix hnd (sanitize_idem _ hld) h1
  · intro store name newRaw hfix hnd hld
    rw [rename_profile]
    by_cases h0 : name ∉ store
    · rw [if_pos h0]
      exact ⟨hfix, hnd⟩
    · rw [if_neg h0]
      by_cases h1 : (sanitize_profile_name newRaw).isEmpty
      · rw [if_pos h1]
        exact ⟨hfix, hnd⟩
      · rw [if_neg h1]
        by_cases h2 : sanitize_profile_name newRaw = name
        · rw [if_pos h2]
          exact ⟨hfix, hnd⟩
        · rw [if_neg h2]
          by_cases h3 : sanitize_profile_name newRaw ∈ store
          · rw [if_pos h3]
            exact ⟨hfix, hnd⟩
          · rw [if_neg h3]
            constructor
            · intro s hs
              rcases List.mem_map.1 hs with ⟨b, hb, hfb⟩
              by_cases hbn : b = name
              · rw [if_pos hbn] at hfb
                rw [← hfb]
                exact sanitize_idem newRaw hld
              · rw [if_neg hbn] at hfb
                rw [← hfb]
                exact hfix b hb
            · exact nodup_map_replace hnd h3
  · intro store name hfix hnd hsan
    rw [replace_profile]
    by_cases h0 : name ∈ store
    · rw [if_pos h0]
      exact ⟨hfix, hnd⟩
    · rw [if_neg h0]
      exact store_append_inv hfix hnd hsan h0

theorem profile_name_invariant_witness :
    lastIsDash (uploadName "My Printer" "").data = false ∧
    ∀ s ∈ upload_profile ["abc"] "My Printer" "",
      sanitize_profile_name s = s :=
  ⟨by decide, (profile_name_invariant_amended.1 ["abc"] "My Printer" ""
    (by decide) (by decide) (by decide)).1⟩
